import Mathlib

/-!
Verification of the BlocksManager core of witnet-rust
(src/core/src/actors/blocks_manager/mod.rs), against its design spec.

The data types (`Hash`, `Block`, `InvVector`, `ChainInfo`), the hashing
utility `calculate_sha256` and the `Storable` byte serialization live in
crates (`witnet_data_structures`, `witnet_crypto`, `witnet_storage`) that are
not part of the sources under verification; they are modelled from the spec
(section 3 of the design document), which treats a block as an opaque,
deterministically serializable and hashable aggregate.  The BlocksManager
state and its four methods are translated directly from the source.
-/

set_option maxRecDepth 2000

namespace Witnet

/-- Modelled from the spec: `witnet_data_structures::chain::Hash` is a
256-bit content digest (`Hash::SHA256([u8; 32])`).  Lexicographic order on
the 32-byte big-endian digest coincides with numeric order, so the digest is
modelled as a natural number (values below 2^256). -/
abbrev Hash := Nat

/-- Modelled from the spec: `Epoch` is an unsigned integer (u32) identifying
a discrete protocol time slot.  No arithmetic is performed on it here. -/
abbrev Epoch := Nat

/-- Modelled from the spec: beacon embedded in a block header — the pair
(epoch, hash of previous block). -/
structure CheckpointBeacon where
  checkpoint : Epoch
  hash_prev_block : Hash
  deriving DecidableEq, Repr

/-- Modelled from the spec: a block's leadership proof, carrying an optional
signature (opaque here) and the influence value used for consolidation. -/
structure LeadershipProof where
  block_sig : Option Nat
  influence : Nat
  deriving DecidableEq, Repr

/-- Modelled from the spec: inner block header (version, beacon, merkle root). -/
structure BlockHeader where
  version : Nat
  beacon : CheckpointBeacon
  hash_merkle_root : Hash
  deriving DecidableEq, Repr

/-- Modelled from the spec: block header together with its leadership proof. -/
structure BlockHeaderWithProof where
  block_header : BlockHeader
  proof : LeadershipProof
  deriving DecidableEq, Repr

/-- Modelled from the spec: a block — header with proof, transaction count and
transaction list.  The transaction body is opaque to this core (the test
fixture uses a unit `Transaction`). -/
structure Block where
  header : BlockHeaderWithProof
  txn_count : Nat
  txns : List Unit
  deriving DecidableEq, Repr

/-- Modelled from the spec: `InvVector`, a tagged identifier for
network-replicable content; every variant wraps a `Hash`. -/
inductive InvVector where
  | Error (hash : Hash)
  | Block (hash : Hash)
  | Tx (hash : Hash)
  | DataRequest (hash : Hash)
  | DataResult (hash : Hash)
  deriving DecidableEq, Repr

/-- Modelled from the spec: `ChainInfo` — the persisted chain-head metadata,
at minimum the current tip's beacon. -/
structure ChainInfo where
  beacon : CheckpointBeacon
  deriving DecidableEq, Repr

/-- Modelled from the spec: encoding of the optional signature for the
canonical serialization. -/
def sigToBytes : Option Nat → List Nat
  | none => [0]
  | some s => [1, s]

/-- Modelled from the spec: the canonical byte serialization of a block
(`Storable::to_bytes`).  The spec treats serialization as a total,
deterministic function of the block's fields; the exact wire layout is out
of scope, so the fields are listed in order. -/
def blockToBytes (b : Block) : List Nat :=
  [b.header.block_header.version,
   b.header.block_header.beacon.checkpoint,
   b.header.block_header.beacon.hash_prev_block,
   b.header.block_header.hash_merkle_root] ++
  sigToBytes b.header.proof.block_sig ++
  [b.header.proof.influence, b.txn_count, b.txns.length]

/-- Modelled from the spec: `witnet_crypto::hash::calculate_sha256`, a
deterministic 256-bit content digest of a byte sequence.  The cryptographic
properties are out of scope; only determinism and the 256-bit range are
retained (an FNV-style fold reduced mod 2^256; the modulus is written as an
explicit numeral). -/
def calculate_sha256 (bytes : List Nat) : Hash :=
  bytes.foldl (fun acc byte =>
      (acc * 1099511628211 + byte + 1) %
        115792089237316195423570985008687907853269984665640564039457584007913129639936)
    14695981039346656037

/-- The content hash of a block: `calculate_sha256(&block.to_bytes())`. -/
def blockHash (b : Block) : Hash :=
  calculate_sha256 (blockToBytes b)

/-- Translated from the source: `BlocksManagerError` (mod.rs, lines 45-53).
`StorageError` wraps a `WitnetError<StorageError>`, opaque here. -/
inductive BlocksManagerError where
  | BlockAlreadyExists
  | BlockDoesNotExist
  | StorageError (err : Nat)
  deriving DecidableEq, Repr

/-- Association-list model of `std::collections::HashMap`: lookup of a key
(`HashMap::get`). -/
def hmGet {α β : Type} [DecidableEq α] : List (α × β) → α → Option β
  | [], _ => none
  | (k, v) :: rest, a => if k = a then some v else hmGet rest a

/-- Model of `HashSet::insert`: adds the element if it is not yet present. -/
def hsInsert (s : List Hash) (h : Hash) : List Hash :=
  if h ∈ s then s else h :: s

/-- Model of `self.epoch_to_block_hash.entry(cp).or_insert_with(HashSet::new)`
followed by `hash_set.insert(hash)`: updates the (first) entry for the epoch,
creating a fresh singleton set when the epoch is absent. -/
def insertEpochHash : List (Epoch × List Hash) → Epoch → Hash → List (Epoch × List Hash)
  | [], e, h => [(e, [h])]
  | (k, s) :: rest, e, h =>
      if k = e then (k, hsInsert s h) :: rest
      else (k, s) :: insertEpochHash rest e h

/-- Translated from the source: the `BlocksManager` actor state (mod.rs,
lines 64-74).  The two `HashMap`s are modelled as association lists and the
`HashSet` of candidate hashes as a duplicate-free list. -/
structure BlocksManager where
  chain_info : Option ChainInfo
  epoch_to_block_hash : List (Epoch × List Hash)
  blocks : List (Hash × Block)
  deriving DecidableEq, Repr

/-- `#[derive(Default)]`: empty maps, no chain info. -/
def BlocksManager.default : BlocksManager :=
  { chain_info := none, epoch_to_block_hash := [], blocks := [] }

/-- Translated from the source: `process_new_block` (mod.rs, lines 119-149).
Returns the result together with the updated state.  `block.to_bytes()?`
is total in the spec model of serialization, so the `?` never propagates a
storage error here; `blockHash` abbreviates the source's
`calculate_sha256(&block.to_bytes()?)`. -/
def process_new_block (s : BlocksManager) (block : Block) :
    Except BlocksManagerError Hash × BlocksManager :=
  let hash := blockHash block
  match hmGet s.blocks hash with
  | some _ => (Except.error BlocksManagerError.BlockAlreadyExists, s)
  | none =>
      let cp := block.header.block_header.beacon.checkpoint
      let s1 : BlocksManager :=
        { s with epoch_to_block_hash := insertEpochHash s.epoch_to_block_hash cp hash }
      let s2 : BlocksManager := { s1 with blocks := (hash, block) :: s1.blocks }
      (Except.ok hash, s2)

/-- Translated from the source: `try_to_get_block` (mod.rs, lines 151-157).
The method takes `&mut self` but never mutates the state, so it is modelled
as a pure query. -/
def try_to_get_block (s : BlocksManager) (hash : Hash) :
    Except BlocksManagerError Block :=
  match hmGet s.blocks hash with
  | none => Except.error BlocksManagerError.BlockDoesNotExist
  | some block => Except.ok block

/-- The hash wrapped by an inventory vector, extracted uniformly from every
variant (the `match` in `discard_existing_inv_vectors`, mod.rs lines 165-171). -/
def invVectorHash : InvVector → Hash
  | InvVector.Error h => h
  | InvVector.Block h => h
  | InvVector.Tx h => h
  | InvVector.DataRequest h => h
  | InvVector.DataResult h => h

/-- Translated from the source: `discard_existing_inv_vectors` (mod.rs,
lines 159-179).  Filters the input, keeping the vectors whose wrapped hash is
not a key of the blocks map, and wraps the result in `Ok`.  The method takes
`&mut self` but never mutates the state. -/
def discard_existing_inv_vectors (s : BlocksManager) (inv_vectors : List InvVector) :
    Except BlocksManagerError (List InvVector) :=
  Except.ok (inv_vectors.filter fun iv => (hmGet s.blocks (invVectorHash iv)).isNone)

/-- Modelled from the spec: the well-known storage key for the ChainInfo
singleton (`storage_keys::CHAIN_KEY`, not under the verified sources). -/
def CHAIN_KEY : List Nat := [99, 104, 97, 105, 110]

/-- Modelled from the spec: serialization of `ChainInfo` for storage. -/
def chainInfoToBytes (ci : ChainInfo) : List Nat :=
  [ci.beacon.checkpoint, ci.beacon.hash_prev_block]

/-- A `Put` message for the storage manager (storage_manager/messages.rs). -/
structure PutMsg where
  key : List Nat
  value : List Nat
  deriving DecidableEq, Repr

/-- Translated from the source: `Put::from_value` — serializes the value and
builds the message (storage_manager/messages.rs, lines 46-55).  Serialization
is total in the spec model, so this always succeeds. -/
def put_from_value (key : List Nat) (bytes : List Nat) : Except Nat PutMsg :=
  Except.ok { key := key, value := bytes }

/-- Observable outcome of `persist_chain_info`: the state afterwards, the
`Put` message sent to the storage manager (if any), and whether an error was
logged. -/
structure PersistOutcome where
  state : BlocksManager
  sentPut : Option PutMsg
  errorLogged : Bool
  deriving DecidableEq, Repr

/-- Translated from the source: `persist_chain_info` (mod.rs, lines 85-117).
The method takes `&self`, so the state is returned unchanged.  When
`chain_info` is `None` it logs an error and returns without sending anything;
otherwise it builds the `Put` via `Put::from_value(..).unwrap()` — a `none`
result models the panic of that `unwrap` (unreachable since serialization is
total) — and sends it.  The asynchronous acknowledgment handling is pure
logging and is not modelled. -/
def persist_chain_info (s : BlocksManager) : Option PersistOutcome :=
  match s.chain_info with
  | none => some { state := s, sentPut := none, errorLogged := true }
  | some ci =>
      match put_from_value CHAIN_KEY (chainInfoToBytes ci) with
      | Except.ok msg => some { state := s, sentPut := some msg, errorLogged := false }
      | Except.error _ => none

/-! ### Consolidation engine

`consolidate(epoch)` does not exist in the sources under verification (only
the module documentation mentions consolidation); it is modelled from the
spec, section 4.2. -/

/-- Modelled from the spec: the strict "is a better candidate" order used for
consolidation — a candidate (hash, influence) beats another when its
influence is strictly greater, or the influences tie and its hash is
lexicographically (numerically) smaller. -/
def candBetter (c a : Hash × Nat) : Prop :=
  a.2 < c.2 ∨ (c.2 = a.2 ∧ @LT.lt Nat instLTNat c.1 a.1)

instance (c a : Hash × Nat) : Decidable (candBetter c a) := by
  unfold candBetter; exact inferInstance

/-- Fold selecting the best candidate starting from a first one. -/
def selectBest (a : Hash × Nat) (l : List (Hash × Nat)) : Hash × Nat :=
  l.foldl (fun acc c => if candBetter c acc then c else acc) a

/-- Modelled from the spec: select the canonical candidate among a list of
(hash, influence) pairs; `none` on an empty list (`NoCandidates`). -/
def selectCanonical : List (Hash × Nat) → Option (Hash × Nat)
  | [] => none
  | a :: rest => some (selectBest a rest)

/-- The candidates of an epoch paired with their influence values, read from
the two maps of the BlocksManager state. -/
def epochCandidatePairs (s : BlocksManager) (e : Epoch) : List (Hash × Nat) :=
  ((hmGet s.epoch_to_block_hash e).getD []).filterMap fun h =>
    (hmGet s.blocks h).map fun b => (h, b.header.proof.influence)

/-- Modelled from the spec: `consolidate(epoch)` — the canonical hash for an
epoch, `none` when the epoch has no candidates. -/
def consolidate (s : BlocksManager) (e : Epoch) : Option Hash :=
  (selectCanonical (epochCandidatePairs s e)).map Prod.fst

/-! ### Reachable states

The three BlocksManager methods exercised by the message handlers, as a
little operation language; `try_to_get_block` and
`discard_existing_inv_vectors` never assign to any field of `self`, so they
leave the state unchanged. -/

/-- One BlocksManager method call. -/
inductive BMOp where
  | newBlock (b : Block)
  | getBlock (h : Hash)
  | discardInv (l : List InvVector)

/-- The state after executing one method call. -/
def applyOp (s : BlocksManager) : BMOp → BlocksManager
  | BMOp.newBlock b => (process_new_block s b).2
  | BMOp.getBlock _ => s
  | BMOp.discardInv _ => s

/-- The state reached from the default (empty) state by a sequence of calls. -/
def runOps (ops : List BMOp) : BlocksManager :=
  ops.foldl applyOp BlocksManager.default

/-- Invariant: every hash in any epoch's candidate set is a key of the blocks
map (no dangling references). -/
def noDangling (s : BlocksManager) : Prop :=
  ∀ e hs, hmGet s.epoch_to_block_hash e = some hs →
    ∀ h ∈ hs, ∃ b, hmGet s.blocks h = some b

/-- Invariant: blocks-map keys are pairwise distinct and each stored block's
content hash equals its key. -/
def hashConsistent (s : BlocksManager) : Prop :=
  (s.blocks.map Prod.fst).Nodup ∧
  ∀ p ∈ s.blocks, blockHash p.2 = p.1

deriving instance DecidableEq for Except

/-! ### Concrete fixtures (mirroring the unit-test fixture
`build_hardcoded_block`, mod.rs lines 378-399) -/

/-- The hardcoded test block: version 1, previous-block hash 4, merkle
root 3, no signature, one (unit) transaction. -/
def build_hardcoded_block (checkpoint : Epoch) (influence : Nat) : Block :=
  { header :=
      { block_header :=
          { version := 1,
            beacon := { checkpoint := checkpoint, hash_prev_block := 4 },
            hash_merkle_root := 3 },
        proof := { block_sig := none, influence := influence } },
    txn_count := 1,
    txns := [()] }

/-- A variant of the test fixture with an explicit merkle root, to build
distinct blocks sharing the same influence. -/
def build_block_mr (checkpoint : Epoch) (influence : Nat) (mr : Hash) : Block :=
  { header :=
      { block_header :=
          { version := 1,
            beacon := { checkpoint := checkpoint, hash_prev_block := 4 },
            hash_merkle_root := mr },
        proof := { block_sig := none, influence := influence } },
    txn_count := 1,
    txns := [()] }

def bA : Block := build_hardcoded_block 2 99999

def bB : Block := build_hardcoded_block 2 12345

def bT1 : Block := build_block_mr 2 500 3

def bT2 : Block := build_block_mr 2 500 7

def sW1 : BlocksManager := runOps [BMOp.newBlock bA]

def sW2 : BlocksManager := runOps [BMOp.newBlock bT1, BMOp.newBlock bT2]

/-- A concrete inventory list: one stored block and one unknown vector. -/
def ivL : List InvVector := [InvVector.Block (blockHash bA), InvVector.Tx 5]

/-! ### Basic lemmas about the map models -/

theorem hmGet_cons {α β : Type} [DecidableEq α] (k a : α) (v : β) (m : List (α × β)) :
    hmGet ((k, v) :: m) a = if k = a then some v else hmGet m a := rfl

theorem hmGet_eq_none {α β : Type} [DecidableEq α] (m : List (α × β)) (a : α)
    (hn : hmGet m a = none) : ∀ p ∈ m, p.1 ≠ a := by
  induction m with
  | nil => intro p hp; cases hp
  | cons q rest ih =>
      obtain ⟨k, v⟩ := q
      rw [hmGet_cons] at hn
      by_cases hk : k = a
      · rw [if_pos hk] at hn; cases hn
      · rw [if_neg hk] at hn
        intro p hp
        rcases List.mem_cons.mp hp with hp | hp
        · rw [hp]; exact hk
        · exact ih hn p hp

theorem hmGet_insertEpochHash (m : List (Epoch × List Hash)) (e0 : Epoch) (h : Hash)
    (e : Epoch) :
    hmGet (insertEpochHash m e0 h) e =
      if e0 = e then some (hsInsert ((hmGet m e0).getD []) h) else hmGet m e := by
  induction m with
  | nil =>
      by_cases he : e0 = e
      · rw [he]; simp [insertEpochHash, hmGet, hsInsert]
      · simp [insertEpochHash, hmGet, he]
  | cons q rest ih =>
      obtain ⟨k, s⟩ := q
      by_cases hk : k = e0
      · subst hk
        by_cases hke : k = e
        · subst hke
          simp [insertEpochHash, hmGet_cons]
        · simp [insertEpochHash, hmGet_cons, hke]
      · have hk2 : ¬ (e0 = k) := fun hh => hk hh.symm
        by_cases hke : k = e
        · subst hke
          simp [insertEpochHash, hmGet_cons, hk, hk2]
        · simp [insertEpochHash, hmGet_cons, hk, hke, ih]

theorem mem_hsInsert (s : List Hash) (h x : Hash) :
    x ∈ hsInsert s h ↔ (x = h ∨ x ∈ s) := by
  unfold hsInsert
  by_cases hh : h ∈ s
  · rw [if_pos hh]
    constructor
    · exact Or.inr
    · rintro (rfl | hx)
      · exact hh
      · exact hx
  · rw [if_neg hh]
    exact List.mem_cons

theorem hmGet_cons_exists {α β : Type} [DecidableEq α] (k : α) (v : β)
    (m : List (α × β)) (a : α) (hx : ∃ b, hmGet m a = some b) :
    ∃ b, hmGet ((k, v) :: m) a = some b := by
  rw [hmGet_cons]
  by_cases hk : k = a
  · exact ⟨v, if_pos hk⟩
  · rw [if_neg hk]; exact hx

/-! ### Preservation of the two state invariants -/

theorem noDangling_default : noDangling BlocksManager.default := by
  intro e hset hget
  cases hget

theorem noDangling_applyOp (s : BlocksManager) (o : BMOp) (hs : noDangling s) :
    noDangling (applyOp s o) := by
  cases o with
  | getBlock h => exact hs
  | discardInv l => exact hs
  | newBlock b =>
      show noDangling (process_new_block s b).2
      cases hb : hmGet s.blocks (blockHash b) with
      | some blk =>
          simp only [process_new_block, hb]
          exact hs
      | none =>
          simp only [process_new_block, hb]
          intro e hset hget h hmem
          dsimp only at hget ⊢
          rw [hmGet_insertEpochHash] at hget
          by_cases hcp : b.header.block_header.beacon.checkpoint = e
          · rw [if_pos hcp] at hget
            injection hget with heq
            rw [← heq, mem_hsInsert] at hmem
            rcases hmem with hmem | hmem
            · exact ⟨b, by rw [hmGet_cons, if_pos hmem.symm]⟩
            · apply hmGet_cons_exists
              cases hold : hmGet s.epoch_to_block_hash b.header.block_header.beacon.checkpoint with
              | none =>
                  rw [hold] at hmem
                  exact absurd hmem (List.not_mem_nil h)
              | some s0 =>
                  rw [hold] at hmem
                  exact hs _ s0 hold h hmem
          · rw [if_neg hcp] at hget
            exact hmGet_cons_exists _ _ _ _ (hs e hset hget h hmem)

theorem noDangling_foldl (ops : List BMOp) (s : BlocksManager) (hs : noDangling s) :
    noDangling (ops.foldl applyOp s) := by
  induction ops generalizing s with
  | nil => exact hs
  | cons o rest ih => exact ih _ (noDangling_applyOp s o hs)

theorem noDangling_runOps (ops : List BMOp) : noDangling (runOps ops) :=
  noDangling_foldl ops BlocksManager.default noDangling_default

theorem hashConsistent_default : hashConsistent BlocksManager.default := by
  constructor
  · exact List.nodup_nil
  · intro p hp; cases hp

theorem hashConsistent_applyOp (s : BlocksManager) (o : BMOp)
    (hs : hashConsistent s) : hashConsistent (applyOp s o) := by
  cases o with
  | getBlock h => exact hs
  | discardInv l => exact hs
  | newBlock b =>
      show hashConsistent (process_new_block s b).2
      cases hb : hmGet s.blocks (blockHash b) with
      | some blk =>
          simp only [process_new_block, hb]
          exact hs
      | none =>
          simp only [process_new_block, hb]
          generalize hH : blockHash b = H at hb ⊢
          constructor
          · dsimp only
            rw [List.map_cons, List.nodup_cons]
            refine ⟨?_, hs.1⟩
            intro hmem
            rcases List.mem_map.mp hmem with ⟨p, hp, hfst⟩
            have hne := hmGet_eq_none s.blocks H hb p hp
            exact hne hfst
          · intro p hp
            dsimp only at hp
            rcases List.mem_cons.mp hp with hp | hp
            · subst hp
              dsimp only
              exact hH
            · exact hs.2 p hp

theorem hashConsistent_foldl (ops : List BMOp) (s : BlocksManager)
    (hs : hashConsistent s) : hashConsistent (ops.foldl applyOp s) := by
  induction ops generalizing s with
  | nil => exact hs
  | cons o rest ih => exact ih _ (hashConsistent_applyOp s o hs)

theorem hashConsistent_runOps (ops : List BMOp) : hashConsistent (runOps ops) :=
  hashConsistent_foldl ops BlocksManager.default hashConsistent_default

/-! ### The candidate order is a strict linear order on (hash, influence) pairs -/

/- `Hash` is definitionally `Nat`, so the order lemmas are stated over
`Nat × Nat`; they apply to `Hash × Nat` pairs unchanged. -/

theorem candBetter_irrefl (a : Nat × Nat) : ¬ candBetter a a := by
  simp only [candBetter]
  omega

theorem candBetter_trans {x y z : Nat × Nat}
    (h1 : candBetter x y) (h2 : candBetter y z) : candBetter x z := by
  simp only [candBetter] at h1 h2 ⊢
  omega

theorem candBetter_neg_trans {x y z : Nat × Nat}
    (h1 : ¬ candBetter x y) (h2 : ¬ candBetter y z) : ¬ candBetter x z := by
  simp only [candBetter] at h1 h2 ⊢
  omega

theorem candBetter_antisymm {x y : Nat × Nat}
    (h1 : ¬ candBetter x y) (h2 : ¬ candBetter y x) : x = y := by
  obtain ⟨a, b⟩ := x
  obtain ⟨c, d⟩ := y
  simp only [candBetter] at h1 h2
  have hbd : b = d := by omega
  have hac : @Eq Nat a c := by omega
  rw [hbd, hac]

/-! ### The fold computes the maximum under that order -/

theorem selectBest_mem (a : Hash × Nat) (l : List (Hash × Nat)) :
    selectBest a l = a ∨ selectBest a l ∈ l := by
  induction l generalizing a with
  | nil => exact Or.inl rfl
  | cons c t ih =>
      have heq : selectBest a (c :: t) =
          selectBest (if candBetter c a then c else a) t := rfl
      rw [heq]
      rcases ih (if candBetter c a then c else a) with h | h
      · rw [h]
        by_cases hc : candBetter c a
        · rw [if_pos hc]
          exact Or.inr (List.mem_cons_self c t)
        · rw [if_neg hc]
          exact Or.inl rfl
      · exact Or.inr (List.mem_cons_of_mem c h)

theorem selectBest_not_better (a : Hash × Nat) (l : List (Hash × Nat)) :
    ∀ x, (x = a ∨ x ∈ l) → ¬ candBetter x (selectBest a l) := by
  induction l generalizing a with
  | nil =>
      intro x hx
      rcases hx with rfl | hx
      · exact candBetter_irrefl x
      · cases hx
  | cons c t ih =>
      intro x hx
      have heq : selectBest a (c :: t) =
          selectBest (if candBetter c a then c else a) t := rfl
      rw [heq]
      rcases hx with hx | hx
      · rw [hx]
        by_cases hc : candBetter c a
        · rw [if_pos hc]
          intro hxa
          exact ih c c (Or.inl rfl) (candBetter_trans hc hxa)
        · rw [if_neg hc]
          exact ih a a (Or.inl rfl)
      · rcases List.mem_cons.mp hx with hx | hx
        · rw [hx]
          by_cases hc : candBetter c a
          · rw [if_pos hc]
            exact ih c c (Or.inl rfl)
          · rw [if_neg hc]
            exact candBetter_neg_trans hc (ih a a (Or.inl rfl))
        · by_cases hc : candBetter c a
          · rw [if_pos hc]
            exact ih c x (Or.inr hx)
          · rw [if_neg hc]
            exact ih a x (Or.inr hx)

theorem selectCanonical_spec (l : List (Hash × Nat)) (r : Hash × Nat)
    (hr : selectCanonical l = some r) :
    r ∈ l ∧ ∀ x ∈ l, ¬ candBetter x r := by
  cases l with
  | nil => cases hr
  | cons a t =>
      simp only [selectCanonical] at hr
      injection hr with hr
      constructor
      · rw [← hr]
        rcases selectBest_mem a t with h | h
        · rw [h]
          exact List.mem_cons_self a t
        · exact List.mem_cons_of_mem a h
      · intro x hx
        rw [← hr]
        rcases List.mem_cons.mp hx with hx | hx
        · rw [hx]
          exact selectBest_not_better a t a (Or.inl rfl)
        · exact selectBest_not_better a t x (Or.inr hx)

theorem selectCanonical_isSome (l : List (Hash × Nat)) (hne : l ≠ []) :
    ∃ r, selectCanonical l = some r := by
  cases l with
  | nil => exact absurd rfl hne
  | cons a t => exact ⟨selectBest a t, rfl⟩

theorem selectCanonical_perm (l1 l2 : List (Hash × Nat)) (hp : l1.Perm l2) :
    selectCanonical l1 = selectCanonical l2 := by
  cases l1 with
  | nil =>
      have h2 : l2 = [] := List.Perm.eq_nil hp.symm
      rw [h2]
  | cons a t =>
      cases l2 with
      | nil =>
          have h1 : a :: t = [] := List.Perm.eq_nil hp
          cases h1
      | cons b u =>
          obtain ⟨ha, hna⟩ := selectCanonical_spec (a :: t) (selectBest a t) rfl
          obtain ⟨hb, hnb⟩ := selectCanonical_spec (b :: u) (selectBest b u) rfl
          have hmemb : selectBest b u ∈ a :: t := (List.Perm.mem_iff hp).mpr hb
          have hmema : selectBest a t ∈ b :: u := (List.Perm.mem_iff hp).mp ha
          have hx := hna (selectBest b u) hmemb
          have hy := hnb (selectBest a t) hmema
          have heq := candBetter_antisymm hy hx
          show some (selectBest a t) = some (selectBest b u)
          rw [heq]

theorem epochCandidatePairs_ne_nil (s : BlocksManager) (e : Epoch)
    (hnd : noDangling s) (hcand : (hmGet s.epoch_to_block_hash e).getD [] ≠ []) :
    epochCandidatePairs s e ≠ [] := by
  cases hget : hmGet s.epoch_to_block_hash e with
  | none => rw [hget] at hcand; exact absurd rfl hcand
  | some hsl =>
      rw [hget] at hcand
      cases hsl with
      | nil => exact absurd rfl hcand
      | cons h0 rest =>
          obtain ⟨b0, hb0⟩ := hnd e (h0 :: rest) hget h0 (List.mem_cons_self h0 rest)
          unfold epochCandidatePairs
          rw [hget, Option.getD_some]
          intro hcontra
          have hmem : (h0, b0.header.proof.influence) ∈ (h0 :: rest).filterMap
              (fun h => (hmGet s.blocks h).map fun b => (h, b.header.proof.influence)) :=
            List.mem_filterMap.mpr ⟨h0, List.mem_cons_self h0 rest, by rw [hb0]; rfl⟩
          rw [hcontra] at hmem
          cases hmem

/-! ### Characterization of the two branches of the methods -/

theorem process_new_block_eq_some (s : BlocksManager) (b : Block) (blk : Block)
    (hb : hmGet s.blocks (blockHash b) = some blk) :
    process_new_block s b = (Except.error BlocksManagerError.BlockAlreadyExists, s) := by
  simp only [process_new_block, hb]

theorem process_new_block_eq_none (s : BlocksManager) (b : Block)
    (hb : hmGet s.blocks (blockHash b) = none) :
    process_new_block s b = (Except.ok (blockHash b),
      { chain_info := s.chain_info,
        epoch_to_block_hash := insertEpochHash s.epoch_to_block_hash
          b.header.block_header.beacon.checkpoint (blockHash b),
        blocks := (blockHash b, b) :: s.blocks }) := by
  simp only [process_new_block, hb]

theorem process_new_block_fst_some (s : BlocksManager) (b : Block) (blk : Block)
    (hb : hmGet s.blocks (blockHash b) = some blk) :
    (process_new_block s b).1 = Except.error BlocksManagerError.BlockAlreadyExists := by
  rw [process_new_block_eq_some s b blk hb]

theorem process_new_block_fst_none (s : BlocksManager) (b : Block)
    (hb : hmGet s.blocks (blockHash b) = none) :
    (process_new_block s b).1 = Except.ok (blockHash b) := by
  rw [process_new_block_eq_none s b hb]

theorem process_new_block_snd_some (s : BlocksManager) (b : Block) (blk : Block)
    (hb : hmGet s.blocks (blockHash b) = some blk) :
    (process_new_block s b).2 = s := by
  rw [process_new_block_eq_some s b blk hb]

theorem try_to_get_block_eq_none (s : BlocksManager) (h : Hash)
    (hb : hmGet s.blocks h = none) :
    try_to_get_block s h = Except.error BlocksManagerError.BlockDoesNotExist := by
  simp only [try_to_get_block, hb]

theorem try_to_get_block_eq_some (s : BlocksManager) (h : Hash) (blk : Block)
    (hb : hmGet s.blocks h = some blk) :
    try_to_get_block s h = Except.ok blk := by
  simp only [try_to_get_block, hb]

/-! ### Claim theorems -/

/-- C1: `process_new_block` computes the block's content hash and fails with
`BlockAlreadyExists` exactly when that hash is already a key of the blocks
map; otherwise it returns the hash, inserts the block under that hash
(leaving every other key unchanged), and adds the hash to the candidate set
of the epoch given by the block's beacon checkpoint (creating the set if
absent, leaving every other epoch unchanged). -/
theorem process_new_block_spec (s : BlocksManager) (b : Block) :
    ((process_new_block s b).1 = Except.error BlocksManagerError.BlockAlreadyExists ↔
        hmGet s.blocks (blockHash b) ≠ none) ∧
    (hmGet s.blocks (blockHash b) = none →
      (process_new_block s b).1 = Except.ok (blockHash b) ∧
      hmGet (process_new_block s b).2.blocks (blockHash b) = some b ∧
      (∀ x, x ≠ blockHash b →
        hmGet (process_new_block s b).2.blocks x = hmGet s.blocks x) ∧
      (∃ hs, hmGet (process_new_block s b).2.epoch_to_block_hash
            b.header.block_header.beacon.checkpoint = some hs ∧
        (∀ x, x ∈ hs ↔ (x = blockHash b ∨
          x ∈ (hmGet s.epoch_to_block_hash
                b.header.block_header.beacon.checkpoint).getD []))) ∧
      (∀ e, e ≠ b.header.block_header.beacon.checkpoint →
        hmGet (process_new_block s b).2.epoch_to_block_hash e =
          hmGet s.epoch_to_block_hash e)) := by
  cases hb : hmGet s.blocks (blockHash b) with
  | some blk =>
      constructor
      · constructor
        · intro _ hc
          cases hc
        · intro _
          exact process_new_block_fst_some s b blk hb
      · intro hnone
        cases hnone
  | none =>
      constructor
      · constructor
        · intro hc
          rw [process_new_block_fst_none s b hb] at hc
          exact Except.noConfusion hc
        · intro hne
          exact absurd rfl hne
      · intro _
        rw [process_new_block_eq_none s b hb]
        generalize hH : blockHash b = H
        refine ⟨rfl, ?_, ?_, ?_, ?_⟩
        · dsimp only
          rw [hmGet_cons, if_pos rfl]
        · intro x hx
          dsimp only
          rw [hmGet_cons, if_neg (fun hh => hx hh.symm)]
        · dsimp only
          rw [hmGet_insertEpochHash, if_pos rfl]
          refine ⟨_, rfl, ?_⟩
          intro x
          rw [mem_hsInsert]
        · intro e he
          dsimp only
          rw [hmGet_insertEpochHash, if_neg (fun hh => he hh.symm)]

/-- C1 witness: inserting the hardcoded test block into the empty manager
succeeds and returns its content hash. -/
theorem process_new_block_spec_witness :
    hmGet BlocksManager.default.blocks (blockHash bA) = none ∧
    (process_new_block BlocksManager.default bA).1 = Except.ok (blockHash bA) :=
  ⟨by decide, ((process_new_block_spec BlocksManager.default bA).2 (by decide)).1⟩

/-- C3: `discard_existing_inv_vectors` always succeeds and returns the
subsequence of the input, in the input's order, of exactly those vectors
whose wrapped hash is not a key of the blocks map; an empty input yields an
empty output. -/
theorem discard_existing_inv_vectors_spec (s : BlocksManager) (l : List InvVector) :
    ∃ r, discard_existing_inv_vectors s l = Except.ok r ∧
      r.Sublist l ∧
      (∀ iv, iv ∈ r ↔ (iv ∈ l ∧ hmGet s.blocks (invVectorHash iv) = none)) ∧
      (l = [] → r = []) := by
  refine ⟨l.filter (fun iv => (hmGet s.blocks (invVectorHash iv)).isNone),
    rfl, List.filter_sublist l, ?_, ?_⟩
  · intro iv
    rw [List.mem_filter]
    constructor
    · rintro ⟨h1, h2⟩
      exact ⟨h1, Option.isNone_iff_eq_none.mp h2⟩
    · rintro ⟨h1, h2⟩
      exact ⟨h1, Option.isNone_iff_eq_none.mpr h2⟩
  · intro hl
    subst hl
    rfl

/-- C3 witness: filtering a concrete list against a one-block index keeps
exactly the unknown vector. -/
theorem discard_existing_inv_vectors_spec_witness :
    ∃ r, discard_existing_inv_vectors sW1 ivL = Except.ok r ∧
      r.Sublist ivL ∧
      (∀ iv, iv ∈ r ↔ (iv ∈ ivL ∧ hmGet sW1.blocks (invVectorHash iv) = none)) ∧
      (ivL = [] → r = []) :=
  discard_existing_inv_vectors_spec sW1 ivL

/-- C4: `process_new_block` is atomic with respect to the two maps: on any
error the state is returned unchanged, and on success the block is present
in the blocks map and its hash is present in the candidate set of its epoch. -/
theorem process_new_block_atomic (s : BlocksManager) (b : Block) :
    (∀ e, (process_new_block s b).1 = Except.error e → (process_new_block s b).2 = s) ∧
    (∀ h, (process_new_block s b).1 = Except.ok h →
      hmGet (process_new_block s b).2.blocks h = some b ∧
      ∃ hs, hmGet (process_new_block s b).2.epoch_to_block_hash
          b.header.block_header.beacon.checkpoint = some hs ∧ h ∈ hs) := by
  cases hb : hmGet s.blocks (blockHash b) with
  | some blk =>
      constructor
      · intro e he
        exact process_new_block_snd_some s b blk hb
      · intro h hok
        rw [process_new_block_fst_some s b blk hb] at hok
        exact Except.noConfusion hok
  | none =>
      constructor
      · intro e he
        rw [process_new_block_fst_none s b hb] at he
        exact Except.noConfusion he
      · intro h hok
        rw [process_new_block_fst_none s b hb] at hok
        injection hok with hok
        rw [process_new_block_eq_none s b hb]
        generalize hH : blockHash b = H at hok ⊢
        rw [← hok]
        constructor
        · dsimp only
          rw [hmGet_cons, if_pos rfl]
        · dsimp only
          rw [hmGet_insertEpochHash, if_pos rfl]
          refine ⟨_, rfl, ?_⟩
          rw [mem_hsInsert]
          exact Or.inl rfl

/-- C4 witness: the success case at the empty state updates both maps. -/
theorem process_new_block_atomic_witness :
    hmGet (process_new_block BlocksManager.default bA).2.blocks (blockHash bA) = some bA ∧
    ∃ hs, hmGet (process_new_block BlocksManager.default bA).2.epoch_to_block_hash
        2 = some hs ∧ blockHash bA ∈ hs :=
  (process_new_block_atomic BlocksManager.default bA).2 (blockHash bA) (by decide)

/-- C5: in every state reachable from the default state by any sequence of
the three BlocksManager operations, every hash in any epoch's candidate set
is a key of the blocks map (no dangling references). -/
theorem epoch_candidates_no_dangling (ops : List BMOp) (e : Epoch) (hs : List Hash)
    (hget : hmGet (runOps ops).epoch_to_block_hash e = some hs)
    (h : Hash) (hmem : h ∈ hs) :
    ∃ b, hmGet (runOps ops).blocks h = some b :=
  noDangling_runOps ops e hs hget h hmem

/-- C5 witness: after one insertion, the single candidate hash of epoch 2 is
a key of the blocks map. -/
theorem epoch_candidates_no_dangling_witness :
    ∃ b, hmGet (runOps [BMOp.newBlock bA]).blocks (blockHash bA) = some b :=
  epoch_candidates_no_dangling [BMOp.newBlock bA] 2 [blockHash bA]
    (by decide) (blockHash bA) (by decide)

/-- C6: in every reachable state the keys of the blocks map are pairwise
distinct (each key has exactly one block) and every stored block's computed
content hash equals its key. -/
theorem blocks_map_hash_consistent (ops : List BMOp) :
    ((runOps ops).blocks.map Prod.fst).Nodup ∧
    ∀ h b, (h, b) ∈ (runOps ops).blocks → blockHash b = h := by
  obtain ⟨h1, h2⟩ := hashConsistent_runOps ops
  exact ⟨h1, fun h b hm => h2 (h, b) hm⟩

/-- C6 witness: after one insertion the stored block's hash equals its key. -/
theorem blocks_map_hash_consistent_witness :
    ((runOps [BMOp.newBlock bA]).blocks.map Prod.fst).Nodup ∧
    blockHash bA = blockHash bA :=
  ⟨(blocks_map_hash_consistent [BMOp.newBlock bA]).1,
   (blocks_map_hash_consistent [BMOp.newBlock bA]).2 (blockHash bA) bA (by decide)⟩

/-- C7: `try_to_get_block` fails with `BlockDoesNotExist` if and only if the
hash is not a key of the blocks map, and otherwise returns the stored block. -/
theorem try_to_get_block_spec (s : BlocksManager) (h : Hash) :
    (try_to_get_block s h = Except.error BlocksManagerError.BlockDoesNotExist ↔
      hmGet s.blocks h = none) ∧
    (∀ b, hmGet s.blocks h = some b → try_to_get_block s h = Except.ok b) := by
  cases hb : hmGet s.blocks h with
  | none =>
      constructor
      · constructor
        · intro _
          rfl
        · intro _
          exact try_to_get_block_eq_none s h hb
      · intro b hsome
        cases hsome
  | some blk =>
      constructor
      · constructor
        · intro hcontra
          rw [try_to_get_block_eq_some s h blk hb] at hcontra
          exact Except.noConfusion hcontra
        · intro hnone
          cases hnone
      · intro b hsome
        injection hsome with hbb
        rw [try_to_get_block_eq_some s h blk hb, hbb]

/-- C7 witness: a never-inserted hash fails with `BlockDoesNotExist`, and a
stored block is returned as stored. -/
theorem try_to_get_block_spec_witness :
    try_to_get_block sW1 (blockHash bA) = Except.ok bA ∧
    try_to_get_block BlocksManager.default (blockHash bA) =
      Except.error BlocksManagerError.BlockDoesNotExist :=
  ⟨(try_to_get_block_spec sW1 (blockHash bA)).2 bA (by decide),
   (try_to_get_block_spec BlocksManager.default (blockHash bA)).1.mpr (by decide)⟩

/-- C8: `process_new_block` never surfaces a storage error to the submitter;
its only error is the duplicate rejection `BlockAlreadyExists`. -/
theorem process_new_block_no_storage_error (s : BlocksManager) (b : Block)
    (e : BlocksManagerError) (he : (process_new_block s b).1 = Except.error e) :
    e = BlocksManagerError.BlockAlreadyExists := by
  cases hb : hmGet s.blocks (blockHash b) with
  | some blk =>
      rw [process_new_block_fst_some s b blk hb] at he
      injection he with he2
      exact he2.symm
  | none =>
      rw [process_new_block_fst_none s b hb] at he
      exact Except.noConfusion he

/-- C8 witness: resubmitting the stored block yields exactly the duplicate
rejection. -/
theorem process_new_block_no_storage_error_witness :
    (process_new_block sW1 bA).1 =
      Except.error BlocksManagerError.BlockAlreadyExists ∧
    BlocksManagerError.BlockAlreadyExists = BlocksManagerError.BlockAlreadyExists :=
  ⟨by decide,
   process_new_block_no_storage_error sW1 bA BlocksManagerError.BlockAlreadyExists
     (by decide)⟩

/-- C2: for every state satisfying the no-dangling invariant whose candidate
set for an epoch is non-empty, `consolidate(epoch)` selects the candidate
whose LeadershipProof carries the strictly greatest influence value, breaking
influence ties by the lexicographically (numerically) smallest hash, and the
selection is deterministic and invariant under any permutation of the
candidate list — in particular independent of insertion order. -/
theorem consolidate_canonical (s : BlocksManager) (e : Epoch)
    (hnd : noDangling s)
    (hcand : (hmGet s.epoch_to_block_hash e).getD [] ≠ []) :
    ∃ (h i : Nat), consolidate s e = some h ∧
      (h, i) ∈ epochCandidatePairs s e ∧
      (∀ p ∈ epochCandidatePairs s e, p.2 < i ∨ (p.2 = i ∧ h ≤ p.1)) ∧
      (∀ s2 : BlocksManager,
        (epochCandidatePairs s2 e).Perm (epochCandidatePairs s e) →
        consolidate s2 e = some h) := by
  obtain ⟨r, hr⟩ := selectCanonical_isSome _ (epochCandidatePairs_ne_nil s e hnd hcand)
  obtain ⟨hmem, hdom⟩ := selectCanonical_spec _ r hr
  refine ⟨r.1, r.2, ?_, ?_, ?_, ?_⟩
  · unfold consolidate
    rw [hr]
    rfl
  · rw [Prod.mk.eta]
    exact hmem
  · intro p hp
    have hnb := hdom p hp
    simp only [candBetter] at hnb
    omega
  · intro s2 hperm
    unfold consolidate
    rw [selectCanonical_perm _ _ hperm, hr]
    rfl

/-- C2 witness: two candidates in epoch 2 with equal influence; the theorem
applies to the state that stored them. -/
theorem consolidate_canonical_witness :
    (hmGet sW2.epoch_to_block_hash 2).getD [] ≠ [] ∧
    ∃ (h i : Nat), consolidate sW2 2 = some h ∧
      (h, i) ∈ epochCandidatePairs sW2 2 ∧
      (∀ p ∈ epochCandidatePairs sW2 2, p.2 < i ∨ (p.2 = i ∧ h ≤ p.1)) ∧
      (∀ s2 : BlocksManager,
        (epochCandidatePairs s2 2).Perm (epochCandidatePairs sW2 2) →
        consolidate s2 2 = some h) :=
  ⟨by decide,
   consolidate_canonical sW2 2
     (noDangling_runOps [BMOp.newBlock bT1, BMOp.newBlock bT2]) (by decide)⟩

/-- C9: `discard_existing_inv_vectors` is idempotent as a filter (re-running
it on its own output with the same state returns it unchanged), and after a
successful block insertion, re-running it removes from the previous result
exactly the entries wrapping that block's hash. -/
theorem discard_idempotent_insert (s : BlocksManager) (b : Block) (l : List InvVector) :
    (∀ r, discard_existing_inv_vectors s l = Except.ok r →
      discard_existing_inv_vectors s r = Except.ok r) ∧
    (∀ h s2, process_new_block s b = (Except.ok h, s2) →
      ∀ r r2, discard_existing_inv_vectors s l = Except.ok r →
        discard_existing_inv_vectors s2 l = Except.ok r2 →
        r2 = r.filter (fun iv => invVectorHash iv != h)) := by
  constructor
  · intro r hr
    injection hr with hr
    subst hr
    unfold discard_existing_inv_vectors
    rw [List.filter_filter]
    congr 1
    exact List.filter_congr (fun a _ => Bool.and_self _)
  · intro h s2 hps r r2 hr hr2
    cases hb : hmGet s.blocks (blockHash b) with
    | some blk =>
        rw [process_new_block_eq_some s b blk hb] at hps
        injection hps with h1 h2
        exact Except.noConfusion h1
    | none =>
        rw [process_new_block_eq_none s b hb] at hps
        injection hps with h1 h2
        injection h1 with h1
        injection hr with hr
        injection hr2 with hr2
        subst hr
        subst hr2
        subst h1
        rw [← h2]
        generalize hH : blockHash b = H
        rw [List.filter_filter]
        apply List.filter_congr
        intro iv hiv
        dsimp only
        rw [hmGet_cons]
        by_cases hx : H = invVectorHash iv
        · rw [if_pos hx, ← hx]
          simp
        · rw [if_neg hx]
          have hv : (invVectorHash iv != H) = true := by
            simp only [bne_iff_ne]
            exact fun hh => hx hh.symm
          rw [hv, Bool.true_and]

/-- C9 witness: in the empty state both vectors are missing; after inserting
the block, exactly its inventory entry is removed from the result. -/
theorem discard_idempotent_insert_witness :
    (discard_existing_inv_vectors BlocksManager.default ivL = Except.ok ivL) ∧
    [InvVector.Tx 5] = ivL.filter (fun iv => invVectorHash iv != blockHash bA) :=
  ⟨(discard_idempotent_insert BlocksManager.default bA ivL).1 ivL (by decide),
   (discard_idempotent_insert BlocksManager.default bA ivL).2 (blockHash bA) sW1
     (by decide) ivL [InvVector.Tx 5] (by decide) (by decide)⟩

/-! ### Concrete sanity checks mirroring the unit tests -/

example : blockHash bT1 ≠ blockHash bT2 := by decide

example : blockHash bA ≠ blockHash bB := by decide

/- Tie-break: with equal influences the canonical block is the one with the
numerically (lexicographically) smaller hash. -/
example : consolidate sW2 2 = some (min (blockHash bT1) (blockHash bT2)) := by decide

/- add_blocks_same_epoch: both candidate hashes are in epoch 2's set. -/
example :
    blockHash bT1 ∈ (hmGet sW2.epoch_to_block_hash 2).getD [] ∧
    blockHash bT2 ∈ (hmGet sW2.epoch_to_block_hash 2).getD [] := by decide

/- discard_some: the stored block's vector is discarded, the unknown kept. -/
example : discard_existing_inv_vectors sW1 ivL = Except.ok [InvVector.Tx 5] := by
  decide

/-- C10: when `chain_info` is `None`, `persist_chain_info` logs an error and
returns without sending any `Put` message, without panicking, and with the
state unchanged. -/
theorem persist_chain_info_none_graceful (s : BlocksManager)
    (hci : s.chain_info = none) :
    persist_chain_info s =
      some { state := s, sentPut := none, errorLogged := true } := by
  unfold persist_chain_info
  rw [hci]

/-- C10 witness: the default state has no chain info and is handled
gracefully. -/
theorem persist_chain_info_none_graceful_witness :
    persist_chain_info BlocksManager.default =
      some { state := BlocksManager.default, sentPut := none, errorLogged := true } :=
  persist_chain_info_none_graceful BlocksManager.default (by decide)

end Witnet
